import Mathlib

/-!
Verification development for the OBIBUF protocol layer
(`src/obiprotocol/include/obiprotocol.h`, which contains both the header and
the implementation of the DFA engine and the USCN normalizer).

Bytes are modelled as `Nat` (the source works on ASCII `char` data), C doubles
as exact rationals `ℚ`, and the POSIX `regcomp`/`regexec` calls made by the
source are modelled by an executable extended-regular-expression engine with
POSIX "longest match at the reported offset" semantics.  Loops whose
termination is not structural in the source are given explicit fuel; every
caller passes enough fuel for the loop to run exactly as the C loop does.
-/

namespace ObiBuf

/-- ASCII bytes of a string literal (the source manipulates `char*` data). -/
def str2bytes (s : String) : List Nat := s.data.map Char.toNat

/-- `OBI_CANONICAL_BUFFER_SIZE` from the source. -/
def OBI_CANONICAL_BUFFER_SIZE : Nat := 8192

/-- One entry of `uscn_encoding_map` (`uscn_mapping_t`).  The C struct also
stores `encoded_len` and `canonical_len`; in the source table these are
exactly the string lengths, so here they are `.length` of the lists. -/
structure UscnMapping where
  encoded : List Nat
  canonical : List Nat
deriving DecidableEq, Repr

/-- The static table `uscn_encoding_map` from the source, in source order
(the terminating `{NULL, NULL, 0, 0}` sentinel is the end of the list). -/
def uscn_encoding_map : List UscnMapping := [
  ⟨str2bytes "%2e%2e%2f", str2bytes "../"⟩,
  ⟨str2bytes "%c0%af", str2bytes "../"⟩,
  ⟨str2bytes ".%2e/", str2bytes "../"⟩,
  ⟨str2bytes "%2e%2e/", str2bytes "../"⟩,
  ⟨str2bytes "%2f", str2bytes "/"⟩,
  ⟨str2bytes "%2e", str2bytes "."⟩,
  ⟨str2bytes "%20", str2bytes " "⟩,
  ⟨str2bytes "%c0%ae", str2bytes "."⟩,
  ⟨str2bytes "%c0%af", str2bytes "/"⟩,
  ⟨str2bytes "%3A", str2bytes ":"⟩,
  ⟨str2bytes "%7C", str2bytes "|"⟩]

/-- A mapping can be applied at the current position: it fits in the remaining
input `r`, the bytes agree (`memcmp`), and the canonical form fits in the
output buffer (`output_pos + canonical_len < max_output` in the source). -/
abbrev ruleApplicable (m : UscnMapping) (r : List Nat) (p M : Nat) : Prop :=
  m.encoded.length ≤ r.length ∧ r.take m.encoded.length = m.encoded ∧
    p + m.canonical.length < M

/-- The inner `for` loop of phase 1 of `obi_uscn_normalize`: scan the table in
order and return the first applicable mapping (the loop `break`s on the first
entry that matches and fits). -/
def uscnFindMapping : List UscnMapping → List Nat → Nat → Nat → Option UscnMapping
  | [], _, _, _ => none
  | m :: ms, r, p, M =>
    if ruleApplicable m r p M then some m else uscnFindMapping ms r p M

/-- Phase 1 of `obi_uscn_normalize` (encoding substitution).  The C loop runs
`while (input_pos < input_len && output_pos < max_output - 1)`; each iteration
consumes at least one input byte, so fuel `input.length` makes the model run
the loop to completion exactly as the source does. -/
def uscnPhase1Aux : Nat → List Nat → List Nat → Nat → List Nat
  | 0, _, out, _ => out
  | _ + 1, [], out, _ => out
  | fuel + 1, c :: cs, out, M =>
    if out.length < M - 1 then
      match uscnFindMapping uscn_encoding_map (c :: cs) out.length M with
      | some m => uscnPhase1Aux fuel (List.drop m.encoded.length (c :: cs)) (out ++ m.canonical) M
      | none => uscnPhase1Aux fuel cs (out ++ [c]) M
    else out

/-- Phase 2 of `obi_uscn_normalize`: ASCII case folding (`'A'..'Z'` gets 32
added). -/
def caseFold (l : List Nat) : List Nat :=
  l.map (fun c => if 65 ≤ c ∧ c ≤ 90 then c + 32 else c)

/-- The whitespace test of phase 3 (space, tab, LF, CR). -/
def isWs (c : Nat) : Bool := c == 32 || c == 9 || c == 10 || c == 13

/-- Phase 3 of `obi_uscn_normalize`: collapse each maximal whitespace run to a
single space; the Boolean argument is the `in_whitespace` flag. -/
def wsFold : List Nat → Bool → List Nat
  | [], _ => []
  | c :: cs, inWs =>
    if isWs c then
      (if inWs then wsFold cs true else 32 :: wsFold cs true)
    else c :: wsFold cs false

/-- `obi_uscn_context_t`.  The source also keeps `canonical_buffer` /
`buffer_used`, but those fields are only ever written (never read), so they do
not influence any observable behaviour and are omitted.  Note the
`encoding_normalize` flag is never consulted by the source either: phase 1
runs unconditionally, exactly as modelled here. -/
structure UscnContext where
  case_sensitive : Bool
  whitespace_normalize : Bool
  encoding_normalize : Bool
deriving DecidableEq, Repr

/-- `obi_uscn_normalize`.  `M` is the incoming `*output_len` (the buffer
capacity; every caller in the source passes `OBI_CANONICAL_BUFFER_SIZE`).  The
returned list is the canonical output; its length is the outgoing
`*output_len`.  The C function returns `-1` only when handed null pointers,
which have no counterpart here, and `0` otherwise: this model therefore has no
failure case. -/
def obi_uscn_normalize (ctx : UscnContext) (input : List Nat) (M : Nat) : List Nat :=
  if ctx.whitespace_normalize then
    wsFold (if ctx.case_sensitive then uscnPhase1Aux input.length input [] M
            else caseFold (uscnPhase1Aux input.length input [] M)) false
  else
    (if ctx.case_sensitive then uscnPhase1Aux input.length input [] M
     else caseFold (uscnPhase1Aux input.length input [] M))

/-- The USCN configuration installed by `obi_dfa_initialize` in the source:
case folding on, whitespace folding on, encoding normalization on. -/
def uscnDefaultCtx : UscnContext :=
  { case_sensitive := false, whitespace_normalize := true, encoding_normalize := true }

/-!
## POSIX extended regular expressions

`obi_dfa_process_input` compiles each state's pattern with
`regcomp(..., REG_EXTENDED)` and runs `regexec` on the suffix of the canonical
input starting at the current position, accepting the match only when
`rm_so == 0`.  POSIX `regexec` reports the leftmost-longest match, so the
observable behaviour at each position is: the longest match of the whole
pattern at the start of the suffix, or no match.  The model below implements
exactly that for the ERE subset appearing in this code base (literals, escaped
literals, `.`, bracket classes with ranges, `*`, `+`, `?`, `{n}`, `{n,}`,
`{n,m}`, alternation, and a leading `^` anchor, which over a suffix pointer is
the same as matching at offset 0).  Constructs outside the subset make the
model's `regcomp` fail, and the source skips a state whose pattern fails to
compile, which is also what it does on a non-match.
-/

/-- Regular-expression abstract syntax after compilation. -/
inductive Regex where
  | eps : Regex
  | lit : Nat → Regex
  | dot : Regex
  | cls : List (Nat × Nat) → Regex
  | seq : Regex → Regex → Regex
  | alt : Regex → Regex → Regex
  | star : Regex → Regex
deriving DecidableEq, Repr

/-- One closure step used for `star`: all the lengths in `acc` extended by one
more match of the body (whose match-length function is `f`). -/
def starStep (f : List Nat → List Nat) (s : List Nat) (acc : List Nat) : List Nat :=
  (acc ++ acc.flatMap (fun n => (f (s.drop n)).map (fun d => n + d))).dedup

/-- Iterate `starStep` `k` times starting from the empty match. -/
def starIter (f : List Nat → List Nat) (s : List Nat) : Nat → List Nat
  | 0 => [0]
  | k + 1 => starStep f s (starIter f s k)

/-- All prefix lengths of `s` matched by the regex.  For `star`, `s.length`
closure steps suffice: any matched length is reachable by a strictly
increasing chain of partial matches, of length at most `s.length`. -/
def matchLens : Regex → List Nat → List Nat
  | .eps, _ => [0]
  | .lit c, s =>
    match s with
    | [] => []
    | a :: _ => if a = c then [1] else []
  | .dot, s =>
    match s with
    | [] => []
    | _ :: _ => [1]
  | .cls rs, s =>
    match s with
    | [] => []
    | a :: _ => if rs.any (fun p => Nat.ble p.1 a && Nat.ble a p.2) then [1] else []
  | .seq a b, s =>
    ((matchLens a s).flatMap (fun n => (matchLens b (s.drop n)).map (fun d => n + d))).dedup
  | .alt a b, s => (matchLens a s ++ matchLens b s).dedup
  | .star a, s => starIter (fun t => matchLens a t) s s.length

/-- Largest element of a list of naturals, if any. -/
def listMaxN : List Nat → Option Nat
  | [] => none
  | c :: cs => some (cs.foldl max c)

/-- `r` repeated exactly `n` times (for the `{n}` bound). -/
def repExact : Nat → Regex → Regex
  | 0, _ => .eps
  | n + 1, r => .seq r (repExact n r)

/-- `r` repeated at most `n` times (for the `{n,m}` bound). -/
def repUpTo : Nat → Regex → Regex
  | 0, _ => .eps
  | n + 1, r => .alt .eps (.seq r (repUpTo n r))

/-- Bracket-expression body: items until the closing `]`.  A trailing `-` is a
literal, as in POSIX.  Negated classes (leading `^`) are outside the modelled
subset and make compilation fail. -/
def parseClassItems : Nat → List Char → Option (List (Nat × Nat) × List Char)
  | 0, _ => none
  | _ + 1, [] => none
  | _ + 1, ']' :: rest => some ([], rest)
  | fuel + 1, c :: '-' :: d :: rest =>
    if c = '^' then none
    else if d = ']' then
      (parseClassItems fuel ('-' :: d :: rest)).map
        (fun p => ((c.toNat, c.toNat) :: p.1, p.2))
    else
      (parseClassItems fuel rest).map (fun p => ((c.toNat, d.toNat) :: p.1, p.2))
  | fuel + 1, c :: rest =>
    if c = '^' then none
    else (parseClassItems fuel rest).map (fun p => ((c.toNat, c.toNat) :: p.1, p.2))

/-- Characters that cannot stand for themselves as a plain literal atom. -/
def isMeta (c : Char) : Bool :=
  c = '*' || c = '+' || c = '?' || c = '{' || c = '}' || c = '|' ||
  c = '(' || c = ')' || c = '^' || c = '$' || c = '[' || c = ']' ||
  c = '\\' || c = '.'

/-- One atom: `.`, an escaped character, a bracket class, or a literal. -/
def parseAtom : List Char → Option (Regex × List Char)
  | [] => none
  | '.' :: rest => some (.dot, rest)
  | '\\' :: c :: rest => some (.lit c.toNat, rest)
  | '[' :: rest =>
    (parseClassItems (rest.length + 1) rest).map (fun p => (.cls p.1, p.2))
  | c :: rest => if isMeta c then none else some (.lit c.toNat, rest)

/-- Decimal value of a digit run. -/
def digitsVal (ds : List Char) : Nat :=
  ds.foldl (fun n c => 10 * n + (c.toNat - 48)) 0

/-- Apply an optional postfix quantifier to an atom. -/
def applyQuant (r : Regex) : List Char → Option (Regex × List Char)
  | '*' :: rest => some (.star r, rest)
  | '+' :: rest => some (.seq r (.star r), rest)
  | '?' :: rest => some (.alt r .eps, rest)
  | '{' :: rest =>
    let d1 := rest.span Char.isDigit
    match d1.1, d1.2 with
    | [], _ => none
    | _, '}' :: rest2 => some (repExact (digitsVal d1.1) r, rest2)
    | _, ',' :: rest2 =>
      let d2 := rest2.span Char.isDigit
      match d2.1, d2.2 with
      | [], '}' :: rest3 => some (.seq (repExact (digitsVal d1.1) r) (.star r), rest3)
      | _ :: _, '}' :: rest3 =>
        let lo := digitsVal d1.1
        let hi := digitsVal d2.1
        if lo ≤ hi then some (.seq (repExact lo r) (repUpTo (hi - lo) r), rest3)
        else none
      | _, _ => none
    | _, _ => none
  | other => some (r, other)

/-- One branch: a sequence of quantified atoms, ending at `|` or at the end of
the pattern. -/
def parseBranch : Nat → List Char → Regex → Option (Regex × List Char)
  | 0, _, _ => none
  | _ + 1, [], accR => some (accR, [])
  | fuel + 1, cs, accR =>
    match cs with
    | '|' :: _ => some (accR, cs)
    | _ =>
      match parseAtom cs with
      | none => none
      | some (a, rest) =>
        match applyQuant a rest with
        | none => none
        | some (a2, rest2) => parseBranch fuel rest2 (.seq accR a2)

/-- Alternation of branches. -/
def parseAlt : Nat → List Char → Option (Regex × List Char)
  | 0, _ => none
  | fuel + 1, cs =>
    match parseBranch (cs.length + 1) cs .eps with
    | none => none
    | some (r, rest) =>
      match rest with
      | '|' :: rest2 =>
        match parseAlt fuel rest2 with
        | some (r2, rest3) => some (.alt r r2, rest3)
        | none => none
      | _ => some (r, rest)

/-- Model of `regcomp(..., REG_EXTENDED)` for the subset described above.  A
leading `^` anchors the pattern to the start of the string `regexec` is given;
since the source always calls `regexec` on the suffix at the current position
and then insists on `rm_so == 0`, the anchored and unanchored cases behave
identically at each position, so the anchor is simply consumed. -/
def regcompM (pat : List Char) : Option Regex :=
  let body := match pat with
    | '^' :: rest => rest
    | _ => pat
  match parseAlt (body.length + 1) body with
  | some (r, []) => some r
  | _ => none

/-- Model of the `regcomp`/`regexec`/`rm_so == 0` combination in
`obi_dfa_process_input`: the longest match length of the pattern at the start
of the suffix `s`, or `none` when the pattern does not compile or does not
match there (in both cases the source moves on to the next state). -/
def regexecAt0 (pat : List Char) (s : List Nat) : Option Nat :=
  match regcompM pat with
  | none => none
  | some r => listMaxN (matchLens r s)

/-!
## The DFA engine

Translated from `obi_dfa_initialize`, `obi_dfa_register_pattern`,
`obi_dfa_process_input` and `obi_calculate_governance_cost`.
-/

/-- `obi_semantic_pattern_t`. -/
inductive SemanticPattern where
  | protocolHeader
  | securityToken
  | dataPayload
  | schemaReference
  | auditMarker
  | transitionBoundary
  | canonicalDelimiter
  | errorRecovery
deriving DecidableEq, Repr

/-- `obi_dfa_state_t`.  The source struct also has a per-state
`transition_count`/`transitions` pair, which no function ever reads (the
engine scans every state's regex at every position instead), and the pattern
is stored through `strncpy` into a 512-byte buffer, hence the `.take 511`
truncation at the construction sites.  The validation-function pointer is
never invoked by the source and is omitted. -/
structure DfaState where
  state_id : Nat
  pattern_type : SemanticPattern
  regex_pattern : List Char
  is_accepting : Bool
  requires_zero_trust_validation : Bool
deriving DecidableEq, Repr

/-- `obi_transition_t` (the `validation_function` pointer is never called by
the source and is omitted).  `cost_weight` is a C double, modelled as `ℚ`. -/
structure Transition where
  from_state : Nat
  to_state : Nat
  input_symbol : Nat
  cost_weight : ℚ
deriving DecidableEq, Repr

/-- `obi_protocol_dfa_t`.  The fixed-size arrays with their counts are
modelled as lists (`state_count = states.length`,
`transition_count = transitions.length`). -/
structure ProtocolDfa where
  states : List DfaState
  transitions : List Transition
  current_state : Nat
  uscn_context : UscnContext
  zero_trust_enforced : Bool
  governance_cost_accumulator : ℚ
deriving DecidableEq, Repr

/-- `obi_ir_node_type_t`. -/
inductive IrNodeType where
  | protocolMessage
  | securityContext
  | payloadBlock
  | schemaValidation
  | auditRecord
  | errorCondition
deriving DecidableEq, Repr

/-- `obi_ir_node_t` (the `next` pointer becomes list structure). -/
structure IrNode where
  type : IrNodeType
  canonical_content : List Nat
  content_length : Nat
  source_state : Nat
  governance_cost : ℚ
deriving DecidableEq, Repr

/-- The pattern-to-IR mapping in `create_ir_node`. -/
def irTypeOf : SemanticPattern → IrNodeType
  | .protocolHeader => .protocolMessage
  | .securityToken => .securityContext
  | .dataPayload => .payloadBlock
  | .schemaReference => .schemaValidation
  | .auditMarker => .auditRecord
  | _ => .errorCondition

/-- `create_ir_node` (allocation always succeeds in the model). -/
def mkIrNode (source : Nat) (pt : SemanticPattern) (content : List Nat)
    (len : Nat) (cost : ℚ) : IrNode :=
  { type := irTypeOf pt, canonical_content := content, content_length := len,
    source_state := source, governance_cost := cost }

/-- `OBI_PATTERN_HEADER_MARKER` from the source. -/
def OBI_PATTERN_HEADER_MARKER : String := "^OBI-PROTOCOL-[0-9]+\\.[0-9]+:"

/-- `obi_dfa_initialize` (the null-pointer check has no counterpart; the name
is shortened because of tooling restrictions on identifiers). -/
def obi_dfa_init (zero_trust_mode : Bool) : ProtocolDfa :=
  { states := [{ state_id := 0, pattern_type := SemanticPattern.protocolHeader,
                 regex_pattern := OBI_PATTERN_HEADER_MARKER.data.take 511,
                 is_accepting := false, requires_zero_trust_validation := true }],
    transitions := [],
    current_state := 0,
    uscn_context := uscnDefaultCtx,
    zero_trust_enforced := zero_trust_mode,
    governance_cost_accumulator := 0 }

/-- `obi_dfa_register_pattern`: appends a state whose id is the previous state
count; fails (`-1` in C, `none` here) when `OBI_MAX_STATES` is reached. -/
def obi_dfa_register_pattern (dfa : ProtocolDfa) (ptype : SemanticPattern)
    (rx : List Char) : Option (ProtocolDfa × Nat) :=
  if 256 ≤ dfa.states.length then none
  else
    some ({ dfa with states := dfa.states ++
      [{ state_id := dfa.states.length, pattern_type := ptype,
         regex_pattern := rx.take 511,
         is_accepting := ptype == SemanticPattern.dataPayload ||
                         ptype == SemanticPattern.auditMarker,
         requires_zero_trust_validation := dfa.zero_trust_enforced }] },
      dfa.states.length)

/-- The `for (i = 0; i < state_count; i++)` scan inside the processing loop:
the first state in registry order whose regex compiles and matches at the
start of the suffix, with the match length. -/
def dfaFindMatch : List DfaState → List Nat → Option (DfaState × Nat)
  | [], _ => none
  | st :: rest, s =>
    match regexecAt0 st.regex_pattern s with
    | some len => some (st, len)
    | none => dfaFindMatch rest s

/-- The `while (pos < canonical_length)` loop of `obi_dfa_process_input`.
Each iteration either consumes the match or skips one byte; a zero-length
regex match makes the C loop spin forever, which the model reports as `none`
(fuel exhausted).  Returns the emitted IR list (in emission order), the final
`current_state`, and the cost added to the accumulator. -/
def dfaRunLoop (states : List DfaState) (canonical : List Nat) :
    Nat → Nat → Nat → ℚ → List IrNode → Option (List IrNode × Nat × ℚ)
  | 0, pos, cur, acc, ir =>
    if pos < canonical.length then none else some (ir, cur, acc)
  | fuel + 1, pos, cur, acc, ir =>
    if pos < canonical.length then
      match dfaFindMatch states (canonical.drop pos) with
      | some (st, len) =>
        dfaRunLoop states canonical fuel (pos + len) st.state_id
          (acc + (1/10 : ℚ) * len)
          (ir ++ [mkIrNode cur st.pattern_type ((canonical.drop pos).take len)
                    len ((1/10 : ℚ) * len)])
      | none => dfaRunLoop states canonical fuel (pos + 1) cur acc ir
    else some (ir, cur, acc)

/-- `obi_dfa_process_input`: normalize, then traverse.  The local
`current_state` starts at 0 on every call, the per-match cost is
`0.1 * match_length` (the source's "simple cost model"), and on completion the
function stores the final state, adds the cost to the accumulator, hands the
IR list to the caller and returns 0.  `none` models the C loop not
terminating (only possible through a zero-length regex match). -/
def obi_dfa_process_input (dfa : ProtocolDfa) (input : List Nat) (fuel : Nat) :
    Option (ProtocolDfa × List IrNode × Int) :=
  match dfaRunLoop dfa.states
      (obi_uscn_normalize dfa.uscn_context input OBI_CANONICAL_BUFFER_SIZE)
      fuel 0 0 0 [] with
  | some (ir, cur, acc) =>
    some ({ dfa with current_state := cur,
                     governance_cost_accumulator := dfa.governance_cost_accumulator + acc },
          ir, 0)
  | none => none

/-- `obi_calculate_governance_cost` (the `-1.0` null-pointer branch has no
counterpart; doubles are modelled as exact rationals). -/
def obi_calculate_governance_cost (dfa : ProtocolDfa) : ℚ :=
  dfa.governance_cost_accumulator
    + (1/100 : ℚ) * dfa.states.length
    + (5/1000 : ℚ) * dfa.transitions.length
    + (if dfa.zero_trust_enforced then (1/20 : ℚ) else 0)

/-!
## Auxiliary predicates and concrete engine configurations
-/

/-- No ASCII uppercase letter occurs in the list. -/
def noUpper (l : List Nat) : Prop := ∀ c ∈ l, ¬ (65 ≤ c ∧ c ≤ 90)

/-- Every whitespace byte in the list is a plain space. -/
def allWsSpace (l : List Nat) : Prop := ∀ c ∈ l, isWs c = true → c = 32

/-- No two adjacent whitespace bytes. -/
def noWsPair : List Nat → Prop
  | [] => True
  | [_] => True
  | a :: b :: t => ¬ (isWs a = true ∧ isWs b = true) ∧ noWsPair (b :: t)

/-- The invariant of claim C9 for a single state: the accepting flag holds
exactly for the DataPayload and AuditMarker pattern kinds. -/
def acceptsOk (st : DfaState) : Prop :=
  st.is_accepting = (st.pattern_type == SemanticPattern.dataPayload ||
                     st.pattern_type == SemanticPattern.auditMarker)

/-- Engine registries produced by the source API: the initial engine of
`obi_dfa_initialize` followed by any sequence of successful
`obi_dfa_register_pattern` calls. -/
inductive DfaReach : ProtocolDfa → Prop where
  | start (zt : Bool) : DfaReach (obi_dfa_init zt)
  | step (d : ProtocolDfa) (pt : SemanticPattern) (rx : List Char)
      (d2 : ProtocolDfa) (sid : Nat) (hd : DfaReach d)
      (hr : obi_dfa_register_pattern d pt rx = some (d2, sid)) : DfaReach d2

/-- Register a list of patterns in order, as a test harness would. -/
def regSeq (d : ProtocolDfa) (ps : List (SemanticPattern × String)) : ProtocolDfa :=
  ps.foldl (fun d p =>
    match obi_dfa_register_pattern d p.1 p.2.data with
    | some (d2, _) => d2
    | none => d) d

/-- A two-state engine: the initial header state plus one registered state
whose pattern is the literal `a`.  Each byte of an all-`a` input is then a
match of length 1 costing 0.1. -/
def dfaC3 : ProtocolDfa :=
  match obi_dfa_register_pattern (obi_dfa_init true) SemanticPattern.protocolHeader "a".data with
  | some (d, _) => d
  | none => obi_dfa_init true

/-- The engine `dfaC3` after admitting the empty message (used as a concrete
run for the monotone-cost theorem). -/
def dfaC3run0 : ProtocolDfa :=
  { dfaC3 with current_state := 0,
               governance_cost_accumulator := dfaC3.governance_cost_accumulator + 0 }

/-- The raw input of the spec's "bad token length" scenario:
`"SEC:" + "A" * 63`. -/
def C4input : List Nat := str2bytes "SEC:" ++ List.replicate 63 65

/-- Its canonical form (lowercased by USCN). -/
def C4canon : List Nat := str2bytes "sec:" ++ List.replicate 63 97

/-- An eight-state engine registered in the chain order S0..S7 of the spec:
states 1..6 carry patterns that do not occur in the test input, state 7 is the
audit-marker recognizer (over canonical, i.e. lowercase, bytes). -/
def dfaC5 : ProtocolDfa :=
  regSeq (obi_dfa_init true)
    [(SemanticPattern.protocolHeader, "z1"), (SemanticPattern.securityToken, "z2"),
     (SemanticPattern.securityToken, "z3"), (SemanticPattern.schemaReference, "z4"),
     (SemanticPattern.dataPayload, "z5"), (SemanticPattern.dataPayload, "z6"),
     (SemanticPattern.auditMarker, "audit:[0-9]{13}")]

/-- State S7 of `dfaC5` as stored in the registry. -/
def dfaC5audit : DfaState :=
  { state_id := 7, pattern_type := SemanticPattern.auditMarker,
    regex_pattern := "audit:[0-9]{13}".data, is_accepting := true,
    requires_zero_trust_validation := true }

/-- The canonical audit-marker message. -/
def C5canon : List Nat := str2bytes "audit:1700000000000"

/-- `dfaC3` with one transition of cost weight 1 installed in the transition
table (the struct field exists in the source, but no source function ever
reads a transition during processing). -/
def dfaC8 : ProtocolDfa :=
  { dfaC3 with transitions :=
      [{ from_state := 0, to_state := 1, input_symbol := 97, cost_weight := 1 }] }

/-- `dfaC8` after admitting the empty message (used as a concrete run for the
cost-formula theorem). -/
def dfaC8run0 : ProtocolDfa :=
  { dfaC8 with current_state := 0,
               governance_cost_accumulator := dfaC8.governance_cost_accumulator + 0 }

/-- Modelled from the spec: the governance-cost contract of spec section 4.5
("Incremented by each transition's cost_weight + 0.1 × match_length.  At init,
a structural prelude is added: 0.01 × state_count + 0.005 × transition_count +
(0.05 if ZT else 0)").  `taken` lists the (cost_weight, match_length) pairs of
the transitions taken during the admission.  No source function computes this
quantity; the definition exists only to compare the spec's formula with
`obi_calculate_governance_cost`. -/
def specGovernanceCost (state_count transition_count : Nat) (zt : Bool)
    (taken : List (ℚ × Nat)) : ℚ :=
  (1/100 : ℚ) * state_count + (5/1000 : ℚ) * transition_count
    + (if zt then (1/20 : ℚ) else 0)
    + (taken.map (fun t => t.1 + (1/10 : ℚ) * t.2)).sum

/-- The state installed by `obi_dfa_initialize` (used as a concrete witness
for the accepting-flag invariant). -/
def dfaInitState0 : DfaState :=
  { state_id := 0, pattern_type := SemanticPattern.protocolHeader,
    regex_pattern := OBI_PATTERN_HEADER_MARKER.data.take 511,
    is_accepting := false, requires_zero_trust_validation := true }

/-!
## Lemmas about the USCN normalizer
-/

/-- Every entry of the encoding table contains a `%` (byte 37) in its encoded
form. -/
theorem uscn_map_all_percent : ∀ m ∈ uscn_encoding_map, (37 : Nat) ∈ m.encoded := by
  decide

/-- Every encoded form in the table is nonempty. -/
theorem uscn_map_encoded_pos : ∀ m ∈ uscn_encoding_map, 0 < m.encoded.length := by
  decide

/-- Every canonical form in the table is no longer than its encoded form. -/
theorem uscn_map_nonexpanding :
    ∀ m ∈ uscn_encoding_map, m.canonical.length ≤ m.encoded.length := by
  decide

/-- A mapping returned by the table scan is a table entry. -/
theorem uscnFindMapping_mem :
    ∀ {t : List UscnMapping} {r : List Nat} {p M : Nat} {m : UscnMapping},
      uscnFindMapping t r p M = some m → m ∈ t := by
  intro t
  induction t with
  | nil => intro r p M m h; simp [uscnFindMapping] at h
  | cons x xs ih =>
    intro r p M m h
    by_cases hc : ruleApplicable x r p M
    · simp only [uscnFindMapping] at h
      rw [if_pos hc] at h
      cases h
      exact List.mem_cons_self x xs
    · simp only [uscnFindMapping] at h
      rw [if_neg hc] at h
      exact List.mem_cons_of_mem x (ih h)

/-- A mapping returned by the table scan is applicable. -/
theorem uscnFindMapping_applicable :
    ∀ {t : List UscnMapping} {r : List Nat} {p M : Nat} {m : UscnMapping},
      uscnFindMapping t r p M = some m → ruleApplicable m r p M := by
  intro t
  induction t with
  | nil => intro r p M m h; simp [uscnFindMapping] at h
  | cons x xs ih =>
    intro r p M m h
    by_cases hc : ruleApplicable x r p M
    · simp only [uscnFindMapping] at h
      rw [if_pos hc] at h
      cases h
      exact hc
    · simp only [uscnFindMapping] at h
      rw [if_neg hc] at h
      exact ih h

/-- On input without a `%`, no table entry can match, so the scan fails. -/
theorem uscnFindMapping_none_of_no37 :
    ∀ (t : List UscnMapping), (∀ m ∈ t, (37 : Nat) ∈ m.encoded) →
      ∀ (r : List Nat) (p M : Nat), (37 : Nat) ∉ r →
        uscnFindMapping t r p M = none := by
  intro t
  induction t with
  | nil => intro _ r p M _; rfl
  | cons x xs ih =>
    intro hall r p M h37
    have hx : (37 : Nat) ∈ x.encoded := hall x (List.mem_cons_self x xs)
    have hc : ¬ ruleApplicable x r p M := by
      rintro ⟨hle, htake, hroom⟩
      have hmem : (37 : Nat) ∈ r.take x.encoded.length := by
        rw [htake]; exact hx
      exact h37 (List.take_subset _ _ hmem)
    simp only [uscnFindMapping]
    rw [if_neg hc]
    exact ih (fun m hm => hall m (List.mem_cons_of_mem x hm)) r p M h37

/-- On input without a `%`, phase 1 is a bounded copy: it copies the input
until the output buffer holds `M - 1` bytes. -/
theorem uscnPhase1Aux_copy :
    ∀ (fuel : Nat) (rest out : List Nat) (M : Nat), rest.length ≤ fuel →
      (37 : Nat) ∉ rest →
      uscnPhase1Aux fuel rest out M = out ++ rest.take (M - 1 - out.length) := by
  intro fuel
  induction fuel with
  | zero =>
    intro rest out M hle h37
    have hnil : rest = [] := List.eq_nil_of_length_eq_zero (Nat.le_zero.mp hle)
    subst hnil
    simp [uscnPhase1Aux]
  | succ fuel ih =>
    intro rest out M hle h37
    cases rest with
    | nil => simp [uscnPhase1Aux]
    | cons c cs =>
      have hno : uscnFindMapping uscn_encoding_map (c :: cs) out.length M = none :=
        uscnFindMapping_none_of_no37 _ uscn_map_all_percent _ _ _ h37
      by_cases hlt : out.length < M - 1
      · have h37cs : (37 : Nat) ∉ cs := fun hm => h37 (List.mem_cons_of_mem c hm)
        have hlecs : cs.length ≤ fuel := by
          have := hle
          simp only [List.length_cons] at this
          omega
        have step : uscnPhase1Aux (fuel + 1) (c :: cs) out M
            = uscnPhase1Aux fuel cs (out ++ [c]) M := by
          simp only [uscnPhase1Aux, hno]
          rw [if_pos hlt]
        rw [step, ih cs (out ++ [c]) M hlecs h37cs]
        have hk : M - 1 - out.length = (M - 1 - (out ++ [c]).length) + 1 := by
          simp only [List.length_append, List.length_cons, List.length_nil]
          omega
        rw [hk, List.take_succ_cons]
        simp
      · have step : uscnPhase1Aux (fuel + 1) (c :: cs) out M = out := by
          simp only [uscnPhase1Aux]
          rw [if_neg hlt]
        have hk : M - 1 - out.length = 0 := by omega
        rw [step, hk]
        simp

/-- Phase 1 never writes past `M - 1` bytes of output. -/
theorem uscnPhase1Aux_len_le :
    ∀ (fuel : Nat) (rest out : List Nat) (M : Nat), out.length ≤ M - 1 →
      (uscnPhase1Aux fuel rest out M).length ≤ M - 1 := by
  intro fuel
  induction fuel with
  | zero => intro rest out M h; simpa [uscnPhase1Aux] using h
  | succ fuel ih =>
    intro rest out M h
    cases rest with
    | nil => simpa [uscnPhase1Aux] using h
    | cons c cs =>
      by_cases hlt : out.length < M - 1
      · cases hfm : uscnFindMapping uscn_encoding_map (c :: cs) out.length M with
        | some m =>
          have happ := uscnFindMapping_applicable hfm
          have hlen : (out ++ m.canonical).length ≤ M - 1 := by
            have := happ.2.2
            simp only [List.length_append]
            omega
          have step : uscnPhase1Aux (fuel + 1) (c :: cs) out M
              = uscnPhase1Aux fuel (List.drop m.encoded.length (c :: cs)) (out ++ m.canonical) M := by
            simp only [uscnPhase1Aux, hfm]
            rw [if_pos hlt]
          rw [step]
          exact ih _ _ _ hlen
        | none =>
          have hlen : (out ++ [c]).length ≤ M - 1 := by
            simp only [List.length_append, List.length_cons, List.length_nil]
            omega
          have step : uscnPhase1Aux (fuel + 1) (c :: cs) out M
              = uscnPhase1Aux fuel cs (out ++ [c]) M := by
            simp only [uscnPhase1Aux, hfm]
            rw [if_pos hlt]
          rw [step]
          exact ih _ _ _ hlen
      · have step : uscnPhase1Aux (fuel + 1) (c :: cs) out M = out := by
          simp only [uscnPhase1Aux]
          rw [if_neg hlt]
        rw [step]
        exact h

/-- Phase 1 never produces more bytes than it was given (each applied rule
emits no more than it consumes, and copying is one-for-one). -/
theorem uscnPhase1Aux_len_le_input :
    ∀ (fuel : Nat) (rest out : List Nat) (M : Nat),
      (uscnPhase1Aux fuel rest out M).length ≤ out.length + rest.length := by
  intro fuel
  induction fuel with
  | zero => intro rest out M; simp [uscnPhase1Aux]
  | succ fuel ih =>
    intro rest out M
    cases rest with
    | nil => simp [uscnPhase1Aux]
    | cons c cs =>
      by_cases hlt : out.length < M - 1
      · cases hfm : uscnFindMapping uscn_encoding_map (c :: cs) out.length M with
        | some m =>
          have happ := uscnFindMapping_applicable hfm
          have hcan : m.canonical.length ≤ m.encoded.length :=
            uscn_map_nonexpanding m (uscnFindMapping_mem hfm)
          have step : uscnPhase1Aux (fuel + 1) (c :: cs) out M
              = uscnPhase1Aux fuel (List.drop m.encoded.length (c :: cs)) (out ++ m.canonical) M := by
            simp only [uscnPhase1Aux, hfm]
            rw [if_pos hlt]
          rw [step]
          have := ih (List.drop m.encoded.length (c :: cs)) (out ++ m.canonical) M
          have hdrop : (List.drop m.encoded.length (c :: cs)).length
              = (c :: cs).length - m.encoded.length := List.length_drop _ _
          have hfit : m.encoded.length ≤ (c :: cs).length := happ.1
          simp only [List.length_append] at this
          simp only [List.length_cons] at *
          omega
        | none =>
          have step : uscnPhase1Aux (fuel + 1) (c :: cs) out M
              = uscnPhase1Aux fuel cs (out ++ [c]) M := by
            simp only [uscnPhase1Aux, hfm]
            rw [if_pos hlt]
          rw [step]
          have := ih cs (out ++ [c]) M
          simp only [List.length_append, List.length_cons, List.length_nil] at *
          omega
      · have step : uscnPhase1Aux (fuel + 1) (c :: cs) out M = out := by
          simp only [uscnPhase1Aux]
          rw [if_neg hlt]
        rw [step]
        simp only [List.length_cons]
        omega

/-- Case folding preserves length. -/
theorem caseFold_length (l : List Nat) : (caseFold l).length = l.length := by
  simp [caseFold]

/-- Case folding cannot create a `%` byte. -/
theorem caseFold_no37 {l : List Nat} (h : (37 : Nat) ∉ l) : (37 : Nat) ∉ caseFold l := by
  intro hm
  rcases List.mem_map.mp hm with ⟨c, hc, he⟩
  by_cases hu : 65 ≤ c ∧ c ≤ 90
  · rw [if_pos hu] at he
    omega
  · rw [if_neg hu] at he
    exact h (he ▸ hc)

/-- The output of case folding has no uppercase letters. -/
theorem caseFold_noUpper (l : List Nat) : noUpper (caseFold l) := by
  intro c hm
  rcases List.mem_map.mp hm with ⟨x, hx, he⟩
  by_cases hu : 65 ≤ x ∧ x ≤ 90
  · rw [if_pos hu] at he
    omega
  · rw [if_neg hu] at he
    omega

/-- Case folding is the identity on uppercase-free data. -/
theorem caseFold_of_noUpper : ∀ {l : List Nat}, noUpper l → caseFold l = l := by
  intro l
  induction l with
  | nil => intro _; rfl
  | cons c cs ih =>
    intro h
    have hc : ¬ (65 ≤ c ∧ c ≤ 90) := h c (List.mem_cons_self c cs)
    have hcs : noUpper cs := fun x hx => h x (List.mem_cons_of_mem c hx)
    simp only [caseFold, List.map_cons]
    rw [if_neg hc]
    have := ih hcs
    simp only [caseFold] at this
    rw [this]

/-- Whitespace folding never lengthens. -/
theorem wsFold_length_le : ∀ (l : List Nat) (b : Bool), (wsFold l b).length ≤ l.length := by
  intro l
  induction l with
  | nil => intro b; simp [wsFold]
  | cons c cs ih =>
    intro b
    by_cases hws : isWs c = true
    · cases b with
      | true =>
        simp only [wsFold, hws, if_true]
        exact le_trans (ih true) (by simp)
      | false =>
        simp only [wsFold, hws, if_true]
        simp only [List.length_cons]
        exact Nat.succ_le_succ (ih true)
    · simp only [wsFold, hws]
      rw [if_neg (by simp [hws])]
      simp only [List.length_cons]
      exact Nat.succ_le_succ (ih false)

/-- Every byte emitted by whitespace folding is a space or an input byte. -/
theorem wsFold_mem :
    ∀ {l : List Nat} {b : Bool} {c : Nat}, c ∈ wsFold l b → c = 32 ∨ c ∈ l := by
  intro l
  induction l with
  | nil => intro b c h; simp [wsFold] at h
  | cons x xs ih =>
    intro b c h
    by_cases hws : isWs x = true
    · cases b with
      | true =>
        simp only [wsFold, hws, if_true] at h
        rcases ih h with h32 | hmem
        · exact Or.inl h32
        · exact Or.inr (List.mem_cons_of_mem x hmem)
      | false =>
        simp only [wsFold, hws, if_true] at h
        rcases List.mem_cons.mp h with h32 | htail
        · exact Or.inl h32
        · rcases ih htail with h32 | hmem
          · exact Or.inl h32
          · exact Or.inr (List.mem_cons_of_mem x hmem)
    · simp only [wsFold, hws] at h
      rw [if_neg (by simp [hws])] at h
      rcases List.mem_cons.mp h with hx | htail
      · exact Or.inr (hx ▸ List.mem_cons_self x xs)
      · rcases ih htail with h32 | hmem
        · exact Or.inl h32
        · exact Or.inr (List.mem_cons_of_mem x hmem)

/-- Whitespace folding cannot create a `%` byte. -/
theorem wsFold_no37 {l : List Nat} {b : Bool} (h : (37 : Nat) ∉ l) :
    (37 : Nat) ∉ wsFold l b := by
  intro hm
  rcases wsFold_mem hm with h32 | hmem
  · omega
  · exact h hmem

/-- Whitespace folding preserves absence of uppercase letters. -/
theorem wsFold_noUpper {l : List Nat} {b : Bool} (h : noUpper l) : noUpper (wsFold l b) := by
  intro c hc
  rcases wsFold_mem hc with h32 | hmem
  · omega
  · exact h c hmem

/-- Whitespace folding is the identity on whitespace-free data. -/
theorem wsFold_of_no_ws :
    ∀ {l : List Nat}, (∀ c ∈ l, isWs c = false) → ∀ b, wsFold l b = l := by
  intro l
  induction l with
  | nil => intro _ b; rfl
  | cons c cs ih =>
    intro h b
    have hc : isWs c = false := h c (List.mem_cons_self c cs)
    simp only [wsFold, hc]
    rw [if_neg (by simp [hc])]
    rw [ih (fun x hx => h x (List.mem_cons_of_mem c hx)) false]

/-- The head of a fold started inside whitespace is never whitespace. -/
theorem wsFold_head_not_ws :
    ∀ (l : List Nat) (c : Nat) (cs : List Nat), wsFold l true = c :: cs → isWs c = false := by
  intro l
  induction l with
  | nil => intro c cs h; simp [wsFold] at h
  | cons x xs ih =>
    intro c cs h
    by_cases hws : isWs x = true
    · simp only [wsFold, hws, if_true] at h
      exact ih c cs h
    · simp only [wsFold, hws] at h
      rw [if_neg (by simp [hws])] at h
      cases h
      simp only [Bool.not_eq_true] at hws
      exact hws

/-- Every whitespace byte emitted by folding is a space. -/
theorem wsFold_allWsSpace : ∀ (l : List Nat) (b : Bool), allWsSpace (wsFold l b) := by
  intro l
  induction l with
  | nil => intro b c hc; simp [wsFold] at hc
  | cons x xs ih =>
    intro b c hc hcw
    by_cases hws : isWs x = true
    · cases b with
      | true =>
        simp only [wsFold, hws, if_true] at hc
        exact ih true c hc hcw
      | false =>
        simp only [wsFold, hws, if_true] at hc
        rcases List.mem_cons.mp hc with h32 | htail
        · exact h32
        · exact ih true c htail hcw
    · simp only [wsFold, hws] at hc
      rw [if_neg (by simp [hws])] at hc
      rcases List.mem_cons.mp hc with hx | htail
      · subst hx
        simp [hws] at hcw
      · exact ih false c htail hcw

/-- Folded output never has two adjacent whitespace bytes. -/
theorem wsFold_noWsPair : ∀ (l : List Nat) (b : Bool), noWsPair (wsFold l b) := by
  intro l
  induction l with
  | nil => intro b; simp [wsFold, noWsPair]
  | cons x xs ih =>
    intro b
    by_cases hws : isWs x = true
    · cases b with
      | true =>
        simp only [wsFold, hws, if_true]
        exact ih true
      | false =>
        simp only [wsFold, hws, if_true]
        cases hW : wsFold xs true with
        | nil => simp [noWsPair]
        | cons c2 t2 =>
          have hc2 : isWs c2 = false := wsFold_head_not_ws xs c2 t2 hW
          refine ⟨?_, ?_⟩
          · rintro ⟨_, hbad⟩
            rw [hc2] at hbad
            cases hbad
          · rw [← hW]
            exact ih true
    · simp only [wsFold, hws]
      rw [if_neg (by simp [hws])]
      cases hW : wsFold xs false with
      | nil => simp [noWsPair]
      | cons c2 t2 =>
        refine ⟨?_, ?_⟩
        · rintro ⟨hbad, _⟩
          exact hws hbad
        · rw [← hW]
          exact ih false

/-- A collapsed list (whitespace bytes are single spaces, none adjacent) is a
fixpoint of the fold; the Boolean flag may start `true` only if the head is
not whitespace. -/
theorem wsFold_id_aux :
    ∀ (l : List Nat), allWsSpace l → noWsPair l →
      ∀ b : Bool, (b = true → ∀ c cs, l = c :: cs → isWs c = false) →
        wsFold l b = l := by
  intro l
  induction l with
  | nil => intro _ _ b _; rfl
  | cons x xs ih =>
    intro h1 h2 b hb
    have h1xs : allWsSpace xs := fun c hc => h1 c (List.mem_cons_of_mem x hc)
    have h2xs : noWsPair xs := by
      cases xs with
      | nil => trivial
      | cons y t => exact h2.2
    by_cases hws : isWs x = true
    · cases b with
      | true =>
        exact absurd hws (by simp [hb rfl x xs rfl])
      | false =>
        have hx32 : x = 32 := h1 x (List.mem_cons_self x xs) hws
        simp only [wsFold, hws, if_true]
        have hxs : wsFold xs true = xs := by
          apply ih h1xs h2xs true
          intro _ c cs hcs
          subst hcs
          have := h2.1
          by_cases hcw : isWs c = true
          · exact absurd ⟨hws, hcw⟩ this
          · simpa using hcw
        rw [hxs, hx32]
        simp
    · simp only [wsFold, hws]
      rw [if_neg (by simp [hws])]
      have hxs : wsFold xs false = xs := by
        apply ih h1xs h2xs false
        intro hfa
        cases hfa
      rw [hxs]

/-- Folding an already-folded list changes nothing. -/
theorem wsFold_wsFold (l : List Nat) (b : Bool) : wsFold (wsFold l b) false = wsFold l b := by
  apply wsFold_id_aux _ (wsFold_allWsSpace l b) (wsFold_noWsPair l b) false
  intro hfa
  cases hfa

/-- The table scan returns the first applicable entry: the result sits at an
index strictly below which no entry is applicable. -/
theorem uscnFindMapping_first :
    ∀ (t : List UscnMapping) (r : List Nat) (p M : Nat) (m : UscnMapping),
      uscnFindMapping t r p M = some m →
      ∃ i, i < t.length ∧ t[i]? = some m ∧
        ∀ j, j < i → ∀ mj, t[j]? = some mj → ¬ ruleApplicable mj r p M := by
  intro t
  induction t with
  | nil => intro r p M m h; simp [uscnFindMapping] at h
  | cons x xs ih =>
    intro r p M m h
    by_cases hc : ruleApplicable x r p M
    · simp only [uscnFindMapping] at h
      rw [if_pos hc] at h
      cases h
      exact ⟨0, by simp, by simp, fun j hj mj _ => absurd hj (by omega)⟩
    · simp only [uscnFindMapping] at h
      rw [if_neg hc] at h
      obtain ⟨i, hi, hget, hmin⟩ := ih r p M m h
      refine ⟨i + 1, by simpa using hi, by simpa using hget, ?_⟩
      intro j hj mj hg
      cases j with
      | zero =>
        simp only [List.getElem?_cons_zero, Option.some.injEq] at hg
        rw [← hg]
        exact hc
      | succ j =>
        rw [List.getElem?_cons_succ] at hg
        exact hmin j (by omega) mj hg

/-- In the source table, no entry is a strict extension of an earlier one: if
`i < j` and entry `j`'s encoded form is strictly longer, then entry `i`'s
encoded form is not a prefix of it.  (Checked exhaustively over the table.) -/
theorem uscn_map_no_longer_later :
    ∀ i j : Fin uscn_encoding_map.length, (i : Nat) < (j : Nat) →
      (uscn_encoding_map.get i).encoded.length < (uscn_encoding_map.get j).encoded.length →
      ¬ ((uscn_encoding_map.get j).encoded.take (uscn_encoding_map.get i).encoded.length
          = (uscn_encoding_map.get i).encoded) := by
  decide

/-!
## Lemmas about the DFA engine
-/

/-- A completed traversal extends the IR list only at the tail, adds exactly
`0.1 × match_length` per emitted node to the cost, and stamps every node with
its own `0.1 × match_length` cost. -/
theorem dfaRunLoop_spec (states : List DfaState) (canonical : List Nat) :
    ∀ (fuel pos cur : Nat) (acc : ℚ) (ir ir2 : List IrNode) (cur2 : Nat) (acc2 : ℚ),
      dfaRunLoop states canonical fuel pos cur acc ir = some (ir2, cur2, acc2) →
      ∃ nw, ir2 = ir ++ nw ∧
        acc2 = acc + (nw.map (fun n => (1/10 : ℚ) * n.content_length)).sum ∧
        ∀ n ∈ nw, n.governance_cost = (1/10 : ℚ) * n.content_length := by
  intro fuel
  induction fuel with
  | zero =>
    intro pos cur acc ir ir2 cur2 acc2 h
    by_cases hpos : pos < canonical.length
    · simp only [dfaRunLoop] at h
      rw [if_pos hpos] at h
      cases h
    · simp only [dfaRunLoop] at h
      rw [if_neg hpos] at h
      simp only [Option.some.injEq, Prod.mk.injEq] at h
      obtain ⟨h1, h2, h3⟩ := h
      exact ⟨[], by simp [h1], by simp [h3], by simp⟩
  | succ fuel ih =>
    intro pos cur acc ir ir2 cur2 acc2 h
    by_cases hpos : pos < canonical.length
    · cases hfm : dfaFindMatch states (canonical.drop pos) with
      | some p =>
        obtain ⟨st, len⟩ := p
        simp only [dfaRunLoop, hfm] at h
        rw [if_pos hpos] at h
        obtain ⟨nw, hnw, hacc, hcost⟩ := ih _ _ _ _ _ _ _ h
        refine ⟨mkIrNode cur st.pattern_type ((canonical.drop pos).take len) len
                  ((1/10 : ℚ) * len) :: nw, ?_, ?_, ?_⟩
        · rw [hnw]
          simp
        · rw [hacc]
          simp only [List.map_cons, List.sum_cons, mkIrNode]
          ring
        · intro n hn
          rcases List.mem_cons.mp hn with hn0 | hntail
          · rw [hn0]
            simp [mkIrNode]
          · exact hcost n hntail
      | none =>
        simp only [dfaRunLoop, hfm] at h
        rw [if_pos hpos] at h
        exact ih _ _ _ _ _ _ _ h
    · simp only [dfaRunLoop] at h
      rw [if_neg hpos] at h
      simp only [Option.some.injEq, Prod.mk.injEq] at h
      obtain ⟨h1, h2, h3⟩ := h
      exact ⟨[], by simp [h1], by simp [h3], by simp⟩

/-- A successful `obi_dfa_process_input` call leaves the registry, the
transition table and the zero-trust flag unchanged, and grows the accumulator
by exactly `0.1 × match_length` summed over the emitted IR nodes. -/
theorem obi_process_fields (dfa : ProtocolDfa) (input : List Nat) (fuel : Nat)
    (d2 : ProtocolDfa) (ir : List IrNode) (code : Int)
    (h : obi_dfa_process_input dfa input fuel = some (d2, ir, code)) :
    d2.states = dfa.states ∧ d2.transitions = dfa.transitions ∧
    d2.zero_trust_enforced = dfa.zero_trust_enforced ∧
    d2.governance_cost_accumulator
      = dfa.governance_cost_accumulator
        + (ir.map (fun n => (1/10 : ℚ) * n.content_length)).sum := by
  unfold obi_dfa_process_input at h
  cases hrun : dfaRunLoop dfa.states
      (obi_uscn_normalize dfa.uscn_context input OBI_CANONICAL_BUFFER_SIZE) fuel 0 0 0 [] with
  | none => rw [hrun] at h; cases h
  | some trip =>
    obtain ⟨ir0, cur0, acc0⟩ := trip
    rw [hrun] at h
    simp only [Option.some.injEq, Prod.mk.injEq] at h
    obtain ⟨hd2, hir, hcode⟩ := h
    obtain ⟨nw, hnw, hacc, hcost⟩ := dfaRunLoop_spec _ _ _ _ _ _ _ _ _ _ hrun
    simp only [List.nil_append] at hnw
    rw [← hd2, ← hir]
    refine ⟨rfl, rfl, rfl, ?_⟩
    show dfa.governance_cost_accumulator + acc0
        = dfa.governance_cost_accumulator
          + (ir0.map (fun n => (1/10 : ℚ) * n.content_length)).sum
    rw [hnw, hacc]
    ring

/-- With the default USCN configuration, normalization of `%`-free input is a
bounded copy followed by case folding and whitespace folding. -/
theorem normalize_default_eq (s : List Nat) (M : Nat) (h : (37 : Nat) ∉ s) :
    obi_uscn_normalize uscnDefaultCtx s M = wsFold (caseFold (s.take (M - 1))) false := by
  have hcopy := uscnPhase1Aux_copy s.length s [] M (le_refl _) h
  simp only [List.nil_append, List.length_nil, Nat.sub_zero] at hcopy
  simp only [obi_uscn_normalize, uscnDefaultCtx]
  rw [hcopy]
  simp

/-!
## The claims
-/

/-- Claim C1, counterexample: normalization is not idempotent.  The input
`%2E` does not match any table entry (matching is byte-exact), so phase 1
copies it and phase 2 lowercases it to `%2e`; a second normalization then
rewrites that to `.`. -/
theorem C1_not_idempotent_cex :
    obi_uscn_normalize uscnDefaultCtx (str2bytes "%2E") OBI_CANONICAL_BUFFER_SIZE
        = str2bytes "%2e" ∧
    obi_uscn_normalize uscnDefaultCtx
        (obi_uscn_normalize uscnDefaultCtx (str2bytes "%2E") OBI_CANONICAL_BUFFER_SIZE)
        OBI_CANONICAL_BUFFER_SIZE
      ≠ obi_uscn_normalize uscnDefaultCtx (str2bytes "%2E") OBI_CANONICAL_BUFFER_SIZE := by
  refine ⟨by decide, by decide⟩

/-- Claim C1 (amended): `obi_uscn_normalize` is idempotent on every input
that contains no `%` byte (0x25); in general idempotence fails because case
folding runs after encoding substitution and can expose a new lowercase
encoded form. -/
theorem C1_idempotent_on_percent_free (s : List Nat) (h : (37 : Nat) ∉ s) :
    obi_uscn_normalize uscnDefaultCtx
        (obi_uscn_normalize uscnDefaultCtx s OBI_CANONICAL_BUFFER_SIZE)
        OBI_CANONICAL_BUFFER_SIZE
      = obi_uscn_normalize uscnDefaultCtx s OBI_CANONICAL_BUFFER_SIZE := by
  have hform := normalize_default_eq s OBI_CANONICAL_BUFFER_SIZE h
  have h8192 : OBI_CANONICAL_BUFFER_SIZE - 1 = 8191 := by decide
  rw [h8192] at hform
  have h37t : (37 : Nat) ∉ wsFold (caseFold (s.take 8191)) false :=
    wsFold_no37 (caseFold_no37 (fun hm => h (List.take_subset _ _ hm)))
  have hlen : (wsFold (caseFold (s.take 8191)) false).length ≤ 8191 := by
    calc (wsFold (caseFold (s.take 8191)) false).length
        ≤ (caseFold (s.take 8191)).length := wsFold_length_le _ _
      _ = (s.take 8191).length := caseFold_length _
      _ ≤ 8191 := List.length_take_le _ _
  have hform2 := normalize_default_eq (wsFold (caseFold (s.take 8191)) false)
      OBI_CANONICAL_BUFFER_SIZE h37t
  rw [h8192] at hform2
  have htake : (wsFold (caseFold (s.take 8191)) false).take 8191
      = wsFold (caseFold (s.take 8191)) false := List.take_of_length_le hlen
  have hnu : noUpper (wsFold (caseFold (s.take 8191)) false) :=
    wsFold_noUpper (caseFold_noUpper _)
  rw [hform, hform2, htake, caseFold_of_noUpper hnu]
  exact wsFold_wsFold (caseFold (s.take 8191)) false

/-- Claim C1, witness: a concrete `%`-free input on which the amended
idempotence theorem applies. -/
theorem C1_idempotent_witness :
    (37 : Nat) ∉ str2bytes "Hello  World" ∧
    obi_uscn_normalize uscnDefaultCtx
        (obi_uscn_normalize uscnDefaultCtx (str2bytes "Hello  World") OBI_CANONICAL_BUFFER_SIZE)
        OBI_CANONICAL_BUFFER_SIZE
      = obi_uscn_normalize uscnDefaultCtx (str2bytes "Hello  World") OBI_CANONICAL_BUFFER_SIZE :=
  ⟨by decide, C1_idempotent_on_percent_free (str2bytes "Hello  World") (by decide)⟩

/-- Claim C2, counterexample: an 8193-byte input whose canonical form needs
8193 bytes (shown with a larger buffer) is not rejected with any overflow
error; with the 8192-byte canonical buffer the source silently truncates to
8191 bytes and reports success — a partial result. -/
theorem C2_truncation_cex :
    obi_uscn_normalize uscnDefaultCtx (List.replicate 8193 97) OBI_CANONICAL_BUFFER_SIZE
        = List.replicate 8191 97 ∧
    (obi_uscn_normalize uscnDefaultCtx (List.replicate 8193 97) 16384).length = 8193 := by
  have h37 : (37 : Nat) ∉ List.replicate 8193 (97 : Nat) := by
    intro hm
    have := List.eq_of_mem_replicate hm
    omega
  have hcf : ∀ n : Nat, caseFold (List.replicate n 97) = List.replicate n 97 := by
    intro n
    apply caseFold_of_noUpper
    intro c hc
    have := List.eq_of_mem_replicate hc
    omega
  have hwf : ∀ n : Nat, wsFold (List.replicate n (97 : Nat)) false = List.replicate n 97 := by
    intro n
    apply wsFold_of_no_ws
    intro c hc
    have := List.eq_of_mem_replicate hc
    subst this
    rfl
  constructor
  · rw [normalize_default_eq _ _ h37]
    have htk : (List.replicate 8193 (97 : Nat)).take (OBI_CANONICAL_BUFFER_SIZE - 1)
        = List.replicate 8191 97 := by
      rw [List.take_replicate]
      norm_num [OBI_CANONICAL_BUFFER_SIZE]
    rw [htk, hcf, hwf]
  · rw [normalize_default_eq _ _ h37]
    have htk : (List.replicate 8193 (97 : Nat)).take (16384 - 1)
        = List.replicate 8193 97 := by
      rw [List.take_replicate]
      norm_num
    rw [htk, hcf, hwf]
    exact List.length_replicate _ _

/-- Claim C2 (amended): `obi_uscn_normalize` never fails and never reports an
overflow; for every configuration and input its output into the 8192-byte
canonical buffer is at most 8191 bytes, longer canonical content being
silently truncated. -/
theorem C2_output_le_8191 :
    ∀ (ctx : UscnContext) (s : List Nat),
      (obi_uscn_normalize ctx s OBI_CANONICAL_BUFFER_SIZE).length ≤ 8191 := by
  intro ctx s
  have hp : (uscnPhase1Aux s.length s [] OBI_CANONICAL_BUFFER_SIZE).length ≤ 8191 := by
    have := uscnPhase1Aux_len_le s.length s [] OBI_CANONICAL_BUFFER_SIZE (by simp)
    simpa using this
  cases hw : ctx.whitespace_normalize
  · cases hc : ctx.case_sensitive
    · simp only [obi_uscn_normalize, hw, hc]
      simpa [caseFold_length] using hp
    · simp only [obi_uscn_normalize, hw, hc]
      simpa using hp
  · cases hc : ctx.case_sensitive
    · simp only [obi_uscn_normalize, hw, hc]
      simp only [Bool.false_eq_true, if_false, if_true]
      exact le_trans (wsFold_length_le _ _) (by simpa [caseFold_length] using hp)
    · simp only [obi_uscn_normalize, hw, hc]
      simp only [if_true]
      exact le_trans (wsFold_length_le _ _) hp

/-- Claim C3, counterexample: a two-state engine accepting the literal `a`
admits seven `a` bytes with return code 0 (success) while the accumulated
governance cost reaches 0.7 > 0.6 — no `BudgetExceeded` rejection exists. -/
theorem C3_budget_not_enforced_cex :
    ∃ d2 ir, obi_dfa_process_input dfaC3 (str2bytes "aaaaaaa") 16 = some (d2, ir, 0) ∧
      (3 : ℚ)/5 < d2.governance_cost_accumulator := by
  have hproj : ((obi_dfa_process_input dfaC3 (str2bytes "aaaaaaa") 16).map
      (fun x => (x.2.1.map (fun n => n.content_length), x.2.2)))
      = some ([1, 1, 1, 1, 1, 1, 1], 0) := by decide
  cases hp : obi_dfa_process_input dfaC3 (str2bytes "aaaaaaa") 16 with
  | none => rw [hp] at hproj; cases hproj
  | some trip =>
    obtain ⟨d2, ir, code⟩ := trip
    rw [hp] at hproj
    simp only [Option.map, Option.some.injEq, Prod.mk.injEq] at hproj
    obtain ⟨hlen, hcode⟩ := hproj
    obtain ⟨_, _, _, hacc⟩ := obi_process_fields dfaC3 _ 16 d2 ir code hp
    refine ⟨d2, ir, ?_, ?_⟩
    · rw [hcode]
    · rw [hacc]
      have hmm : (ir.map (fun n => (1/10 : ℚ) * n.content_length))
          = (ir.map (fun n => n.content_length)).map (fun k : Nat => (1/10 : ℚ) * (k : ℚ)) := by
        rw [List.map_map]
        rfl
      rw [hmm, hlen]
      have hgca : dfaC3.governance_cost_accumulator = 0 := rfl
      rw [hgca]
      norm_num [List.map_cons, List.map_nil, List.sum_cons, List.sum_nil]

/-- Claim C3 (amended): `obi_dfa_process_input` never gates on governance
cost.  Every completed admission returns code 0 and the accumulator only
grows; it is free to end above 0.6. -/
theorem C3_accept_monotone_cost (dfa : ProtocolDfa) (input : List Nat) (fuel : Nat)
    (d2 : ProtocolDfa) (ir : List IrNode) (code : Int)
    (h : obi_dfa_process_input dfa input fuel = some (d2, ir, code)) :
    code = 0 ∧ dfa.governance_cost_accumulator ≤ d2.governance_cost_accumulator := by
  unfold obi_dfa_process_input at h
  cases hrun : dfaRunLoop dfa.states
      (obi_uscn_normalize dfa.uscn_context input OBI_CANONICAL_BUFFER_SIZE) fuel 0 0 0 [] with
  | none => rw [hrun] at h; cases h
  | some trip =>
    obtain ⟨ir0, cur0, acc0⟩ := trip
    rw [hrun] at h
    simp only [Option.some.injEq, Prod.mk.injEq] at h
    obtain ⟨hd2, hir, hcode⟩ := h
    obtain ⟨nw, hnw, hacc, hcost⟩ := dfaRunLoop_spec _ _ _ _ _ _ _ _ _ _ hrun
    have hsum : 0 ≤ (nw.map (fun n => (1/10 : ℚ) * n.content_length)).sum := by
      apply List.sum_nonneg
      intro x hx
      rcases List.mem_map.mp hx with ⟨n, _, hxe⟩
      rw [← hxe]
      positivity
    refine ⟨hcode.symm, ?_⟩
    rw [← hd2]
    show dfa.governance_cost_accumulator ≤ dfa.governance_cost_accumulator + acc0
    rw [hacc]
    linarith

/-- Claim C3, witness: the monotone-cost theorem applied to a concrete
completed run (the empty message). -/
theorem C3_accept_monotone_witness :
    obi_dfa_process_input dfaC3 [] 1 = some (dfaC3run0, [], 0) ∧
    ((0 : Int) = 0 ∧
      dfaC3.governance_cost_accumulator ≤ dfaC3run0.governance_cost_accumulator) :=
  ⟨rfl, C3_accept_monotone_cost dfaC3 [] 1 dfaC3run0 [] 0 rfl⟩

/-- Claim C4, counterexample: in strict zero-trust mode, the input
`"SEC:" + "A"*63` is not rejected with a `NoMatch` error at the short hex
run; `obi_dfa_process_input` skips every unmatched byte and returns success
(code 0) with an empty IR stream. -/
theorem C4_no_nomatch_cex :
    ((obi_dfa_process_input (obi_dfa_init true) C4input 128).map
        (fun x => (x.2.1, x.2.2))) = some ([], 0) := by
  decide

/-- Claim C4 (amended): when no pattern matches at the current position, the
engine silently advances exactly one byte, with no skip budget and no
`NoMatch` failure: the traversal continues unchanged. -/
theorem C4_silent_skip_step (states : List DfaState) (canonical : List Nat)
    (fuel pos cur : Nat) (acc : ℚ) (ir : List IrNode)
    (hpos : pos < canonical.length)
    (h : dfaFindMatch states (canonical.drop pos) = none) :
    dfaRunLoop states canonical (fuel + 1) pos cur acc ir
      = dfaRunLoop states canonical fuel (pos + 1) cur acc ir := by
  simp only [dfaRunLoop, h]
  rw [if_pos hpos]

/-- Claim C4, witness: the skip step on the canonical form of the short-token
input, at position 0, where no pattern of the freshly initialized engine
matches. -/
theorem C4_silent_skip_witness :
    (0 < C4canon.length ∧
      dfaFindMatch (obi_dfa_init true).states (C4canon.drop 0) = none) ∧
    dfaRunLoop (obi_dfa_init true).states C4canon 6 0 0 0 []
      = dfaRunLoop (obi_dfa_init true).states C4canon 5 1 0 0 [] :=
  ⟨⟨by decide, by decide⟩,
   C4_silent_skip_step (obi_dfa_init true).states C4canon 5 0 0 0 []
     (by decide) (by decide)⟩

/-- Claim C5, counterexample: on the engine registered in the chain order
S0..S7, the audit-marker input makes the run enter state S7 directly from
S0 (the emitted node's source state is 0) and still return success — the
chain S0→S1→…→S7 is not enforced. -/
theorem C5_chain_violated_cex :
    ((obi_dfa_process_input dfaC5 (str2bytes "AUDIT:1700000000000") 32).map
        (fun x => (x.1.current_state, x.2.1.map (fun n => n.source_state), x.2.2)))
      = some (7, [0], 0) := by
  decide

/-- Claim C5 (amended): the engine imposes no entry order between states: at
each position it moves to whichever state's regex matches first in registry
order, regardless of the current state, which only gets recorded in the
emitted IR node. -/
theorem C5_entry_ignores_current_state (states : List DfaState) (canonical : List Nat)
    (fuel pos cur : Nat) (acc : ℚ) (ir : List IrNode) (st : DfaState) (len : Nat)
    (hpos : pos < canonical.length)
    (h : dfaFindMatch states (canonical.drop pos) = some (st, len)) :
    dfaRunLoop states canonical (fuel + 1) pos cur acc ir
      = dfaRunLoop states canonical fuel (pos + len) st.state_id
          (acc + (1/10 : ℚ) * len)
          (ir ++ [mkIrNode cur st.pattern_type ((canonical.drop pos).take len)
                    len ((1/10 : ℚ) * len)]) := by
  simp only [dfaRunLoop, h]
  rw [if_pos hpos]

/-- Claim C5, witness: the entry step applied with current state 5 (not S6):
the audit state S7 is entered all the same. -/
theorem C5_entry_witness :
    (0 < C5canon.length ∧
      dfaFindMatch dfaC5.states (C5canon.drop 0) = some (dfaC5audit, 19)) ∧
    dfaRunLoop dfaC5.states C5canon 4 0 5 0 []
      = dfaRunLoop dfaC5.states C5canon 3 (0 + 19) dfaC5audit.state_id
          (0 + (1/10 : ℚ) * 19)
          ([] ++ [mkIrNode 5 dfaC5audit.pattern_type ((C5canon.drop 0).take 19)
                    19 ((1/10 : ℚ) * 19)]) :=
  ⟨⟨by decide, by decide⟩,
   C5_entry_ignores_current_state dfaC5.states C5canon 3 0 5 0 [] dfaC5audit 19
     (by decide) (by decide)⟩

/-- Claim C6: the table scan of the encoding-substitution phase always picks
an applicable rule of maximal encoded length, ties between equal-length
applicable rules going to the earlier table entry (hence the `%c0%af → ../`
entry beats the later `%c0%af → /` entry). -/
theorem C6_longest_rule_wins (r : List Nat) (p M : Nat) (m : UscnMapping)
    (h : uscnFindMapping uscn_encoding_map r p M = some m) :
    ruleApplicable m r p M ∧
    ∃ i, ∃ hi : i < uscn_encoding_map.length,
      uscn_encoding_map[i] = m ∧
      ∀ j, ∀ hj : j < uscn_encoding_map.length,
        ruleApplicable uscn_encoding_map[j] r p M →
        (uscn_encoding_map[j].encoded.length < m.encoded.length ∨
          (uscn_encoding_map[j].encoded.length = m.encoded.length ∧ i ≤ j)) := by
  have happ := uscnFindMapping_applicable h
  obtain ⟨i, hi, hget, hmin⟩ := uscnFindMapping_first _ r p M m h
  have hgeti : uscn_encoding_map[i] = m := by
    rw [List.getElem?_eq_getElem hi] at hget
    exact Option.some.inj hget
  refine ⟨happ, i, hi, hgeti, ?_⟩
  intro j hj happj
  rcases Nat.lt_trichotomy j i with hji | rfl | hij
  · exact absurd happj (hmin j hji _ (List.getElem?_eq_getElem hj))
  · right
    rw [hgeti]
    exact ⟨rfl, le_refl _⟩
  · by_cases heq : uscn_encoding_map[j].encoded.length = m.encoded.length
    · exact Or.inr ⟨heq, Nat.le_of_lt hij⟩
    · rcases Nat.lt_or_ge uscn_encoding_map[j].encoded.length m.encoded.length with hlt | hge
      · exact Or.inl hlt
      · exfalso
        have hlt2 : m.encoded.length < uscn_encoding_map[j].encoded.length := by omega
        have hpre : uscn_encoding_map[j].encoded.take m.encoded.length = m.encoded := by
          have h1 : r.take m.encoded.length = m.encoded := happ.2.1
          have h2 : r.take uscn_encoding_map[j].encoded.length = uscn_encoding_map[j].encoded :=
            happj.2.1
          rw [← h2, List.take_take, Nat.min_eq_left (Nat.le_of_lt hlt2)]
          exact h1
        have hfact := uscn_map_no_longer_later ⟨i, hi⟩ ⟨j, hj⟩ hij
        simp only [List.get_eq_getElem] at hfact
        rw [hgeti] at hfact
        exact hfact hlt2 hpre

/-- Claim C6, witness: at the duplicated `%c0%af` entry, the scan picks the
path-traversal rewrite to `../`, and the longest-rule theorem applies. -/
theorem C6_longest_rule_witness :
    uscnFindMapping uscn_encoding_map (str2bytes "%c0%af") 0 8192
        = some ⟨str2bytes "%c0%af", str2bytes "../"⟩ ∧
    ruleApplicable ⟨str2bytes "%c0%af", str2bytes "../"⟩ (str2bytes "%c0%af") 0 8192 :=
  ⟨by decide,
   (C6_longest_rule_wins (str2bytes "%c0%af") 0 8192
     ⟨str2bytes "%c0%af", str2bytes "../"⟩ (by decide)).1⟩

/-- Claim C7, counterexample: matching is not case-insensitive on the hex
digits: `%3A` (the exact table spelling) is rewritten to `:`, while `%3a`
matches nothing and is returned unchanged. -/
theorem C7_case_sensitive_cex :
    obi_uscn_normalize uscnDefaultCtx (str2bytes "%3A") OBI_CANONICAL_BUFFER_SIZE
        = str2bytes ":" ∧
    obi_uscn_normalize uscnDefaultCtx (str2bytes "%3a") OBI_CANONICAL_BUFFER_SIZE
        = str2bytes "%3a" ∧
    obi_uscn_normalize uscnDefaultCtx (str2bytes "%3a") OBI_CANONICAL_BUFFER_SIZE
      ≠ obi_uscn_normalize uscnDefaultCtx (str2bytes "%3A") OBI_CANONICAL_BUFFER_SIZE := by
  refine ⟨by decide, by decide, by decide⟩

/-- Claim C7 (amended): encoding-map matching is byte-exact (`memcmp`): each
rule rewrites only its exact spelling.  The lowercase-spelled rules leave
uppercase variants unsubstituted (they are merely case-folded afterwards) and
the uppercase-spelled rules leave lowercase variants untouched. -/
theorem C7_exact_byte_matching :
    obi_uscn_normalize uscnDefaultCtx (str2bytes "%2e") OBI_CANONICAL_BUFFER_SIZE
        = str2bytes "." ∧
    obi_uscn_normalize uscnDefaultCtx (str2bytes "%2E") OBI_CANONICAL_BUFFER_SIZE
        = str2bytes "%2e" ∧
    obi_uscn_normalize uscnDefaultCtx (str2bytes "%2f") OBI_CANONICAL_BUFFER_SIZE
        = str2bytes "/" ∧
    obi_uscn_normalize uscnDefaultCtx (str2bytes "%2F") OBI_CANONICAL_BUFFER_SIZE
        = str2bytes "%2f" ∧
    obi_uscn_normalize uscnDefaultCtx (str2bytes "%7C") OBI_CANONICAL_BUFFER_SIZE
        = str2bytes "|" ∧
    obi_uscn_normalize uscnDefaultCtx (str2bytes "%7c") OBI_CANONICAL_BUFFER_SIZE
        = str2bytes "%7c" := by
  refine ⟨by decide, by decide, by decide, by decide, by decide, by decide⟩

/-- Claim C8, counterexample: with one transition of cost weight 1 installed
and one match of length 1 taken, the engine reports cost 7/40 = 0.175 (prelude
plus 0.1×1), while the spec's formula — which adds the transition's
cost_weight — gives 47/40 = 1.175. -/
theorem C8_cost_formula_cex :
    ∃ d2 ir, obi_dfa_process_input dfaC8 (str2bytes "a") 8 = some (d2, ir, 0) ∧
      obi_calculate_governance_cost d2 = 7/40 ∧
      specGovernanceCost 2 1 true [(1, 1)] = 47/40 ∧
      ((7 : ℚ)/40 ≠ 47/40) := by
  have hproj : ((obi_dfa_process_input dfaC8 (str2bytes "a") 8).map
      (fun x => (x.2.1.map (fun n => n.content_length), x.2.2))) = some ([1], 0) := by
    decide
  cases hp : obi_dfa_process_input dfaC8 (str2bytes "a") 8 with
  | none => rw [hp] at hproj; cases hproj
  | some trip =>
    obtain ⟨d2, ir, code⟩ := trip
    rw [hp] at hproj
    simp only [Option.map, Option.some.injEq, Prod.mk.injEq] at hproj
    obtain ⟨hlen, hcode⟩ := hproj
    obtain ⟨hst, htr, hzt, hacc⟩ := obi_process_fields dfaC8 _ 8 d2 ir code hp
    refine ⟨d2, ir, ?_, ?_, ?_, ?_⟩
    · rw [hcode]
    · unfold obi_calculate_governance_cost
      rw [hst, htr, hzt, hacc]
      have hmm : (ir.map (fun n => (1/10 : ℚ) * n.content_length))
          = (ir.map (fun n => n.content_length)).map (fun k : Nat => (1/10 : ℚ) * (k : ℚ)) := by
        rw [List.map_map]
        rfl
      rw [hmm, hlen]
      have hgca : dfaC8.governance_cost_accumulator = 0 := rfl
      have hns : dfaC8.states.length = 2 := by decide
      have hnt : dfaC8.transitions.length = 1 := rfl
      have hez : dfaC8.zero_trust_enforced = true := rfl
      rw [hgca, hns, hnt, hez]
      norm_num [List.map_cons, List.map_nil, List.sum_cons, List.sum_nil]
    · norm_num [specGovernanceCost]
    · norm_num

/-- Claim C8 (amended): the reported governance cost is the structural
prelude 0.01×state_count + 0.005×transition_count + (0.05 if ZT) plus
0.1×match_length for each regex match of the admission; no transition
cost_weight is ever added. -/
theorem C8_cost_no_weight (dfa : ProtocolDfa) (input : List Nat) (fuel : Nat)
    (d2 : ProtocolDfa) (ir : List IrNode) (code : Int)
    (h : obi_dfa_process_input dfa input fuel = some (d2, ir, code)) :
    obi_calculate_governance_cost d2
      = dfa.governance_cost_accumulator
        + (ir.map (fun n => (1/10 : ℚ) * n.content_length)).sum
        + (1/100 : ℚ) * dfa.states.length
        + (5/1000 : ℚ) * dfa.transitions.length
        + (if dfa.zero_trust_enforced then (1/20 : ℚ) else 0) ∧
    ∀ n ∈ ir, n.governance_cost = (1/10 : ℚ) * n.content_length := by
  unfold obi_dfa_process_input at h
  cases hrun : dfaRunLoop dfa.states
      (obi_uscn_normalize dfa.uscn_context input OBI_CANONICAL_BUFFER_SIZE) fuel 0 0 0 [] with
  | none => rw [hrun] at h; cases h
  | some trip =>
    obtain ⟨ir0, cur0, acc0⟩ := trip
    rw [hrun] at h
    simp only [Option.some.injEq, Prod.mk.injEq] at h
    obtain ⟨hd2, hir, hcode⟩ := h
    obtain ⟨nw, hnw, hacc, hcost⟩ := dfaRunLoop_spec _ _ _ _ _ _ _ _ _ _ hrun
    simp only [List.nil_append] at hnw
    constructor
    · rw [← hd2, ← hir]
      show dfa.governance_cost_accumulator + acc0
            + (1/100 : ℚ) * dfa.states.length
            + (5/1000 : ℚ) * dfa.transitions.length
            + (if dfa.zero_trust_enforced then (1/20 : ℚ) else 0)
          = dfa.governance_cost_accumulator
            + (ir0.map (fun n => (1/10 : ℚ) * n.content_length)).sum
            + (1/100 : ℚ) * dfa.states.length
            + (5/1000 : ℚ) * dfa.transitions.length
            + (if dfa.zero_trust_enforced then (1/20 : ℚ) else 0)
      rw [hnw, hacc]
      ring
    · intro n hn
      rw [← hir, hnw] at hn
      exact hcost n hn

/-- Claim C8, witness: the cost equation of the amended theorem on a concrete
completed admission of `dfaC8` (the empty message). -/
theorem C8_cost_no_weight_witness :
    obi_dfa_process_input dfaC8 [] 1 = some (dfaC8run0, [], 0) ∧
    (obi_calculate_governance_cost dfaC8run0
        = dfaC8.governance_cost_accumulator
          + (([] : List IrNode).map (fun n => (1/10 : ℚ) * n.content_length)).sum
          + (1/100 : ℚ) * dfaC8.states.length
          + (5/1000 : ℚ) * dfaC8.transitions.length
          + (if dfaC8.zero_trust_enforced then (1/20 : ℚ) else 0) ∧
      ∀ n ∈ ([] : List IrNode), n.governance_cost = (1/10 : ℚ) * n.content_length) :=
  ⟨rfl, C8_cost_no_weight dfaC8 [] 1 dfaC8run0 [] 0 rfl⟩

/-- Claim C9: in every registry reachable through the source API (the initial
engine plus any successful pattern registrations), a state is accepting
exactly when its pattern kind is DataPayload or AuditMarker. -/
theorem C9_accepting_invariant (d : ProtocolDfa) (hd : DfaReach d) :
    ∀ st ∈ d.states, acceptsOk st := by
  induction hd with
  | start zt =>
    intro st hst
    simp only [obi_dfa_init, List.mem_singleton] at hst
    subst hst
    rfl
  | step d pt rx d2 sid hd hr ih =>
    intro st hst
    unfold obi_dfa_register_pattern at hr
    by_cases hc : 256 ≤ d.states.length
    · rw [if_pos hc] at hr
      cases hr
    · rw [if_neg hc] at hr
      simp only [Option.some.injEq, Prod.mk.injEq] at hr
      obtain ⟨hd2, _⟩ := hr
      rw [← hd2] at hst
      simp only [List.mem_append, List.mem_singleton] at hst
      rcases hst with hmem | hnew
      · exact ih st hmem
      · subst hnew
        rfl

/-- Claim C9, witness: the invariant holds for the concrete initial state of
a zero-trust engine. -/
theorem C9_accepting_witness : acceptsOk dfaInitState0 :=
  C9_accepting_invariant (obi_dfa_init true) (DfaReach.start true) dfaInitState0 (by decide)

/-- Claim C10: every encoding rule's canonical form is no longer than its
encoded form, and consequently `obi_uscn_normalize` never produces output
longer than its input, for any configuration and any buffer size. -/
theorem C10_normalize_nonexpanding :
    (uscn_encoding_map.all (fun m => Nat.ble m.canonical.length m.encoded.length) = true) ∧
    ∀ (ctx : UscnContext) (s : List Nat) (M : Nat),
      (obi_uscn_normalize ctx s M).length ≤ s.length := by
  refine ⟨by decide, ?_⟩
  intro ctx s M
  have hp : (uscnPhase1Aux s.length s [] M).length ≤ s.length := by
    simpa using uscnPhase1Aux_len_le_input s.length s [] M
  cases hw : ctx.whitespace_normalize
  · cases hc : ctx.case_sensitive
    · simp only [obi_uscn_normalize, hw, hc]
      simpa [caseFold_length] using hp
    · simp only [obi_uscn_normalize, hw, hc]
      simpa using hp
  · cases hc : ctx.case_sensitive
    · simp only [obi_uscn_normalize, hw, hc]
      simp only [Bool.false_eq_true, if_false, if_true]
      exact le_trans (wsFold_length_le _ _) (by simpa [caseFold_length] using hp)
    · simp only [obi_uscn_normalize, hw, hc]
      simp only [if_true]
      exact le_trans (wsFold_length_le _ _) hp

end ObiBuf
